import Mathlib

/-!
Verification of the core of the `AccessManager` class (access_manager.py).

The Python class is parameterised over four opaque identity types `TUser`,
`TGroup`, `TComponent`, `TAccess`, required only to support equality and
hashing; entity types and entities are likewise opaque names as far as the
operations treated here are concerned (the name-validation checks of
`add_entity_type` / `add_entity` are outside the claims).  All five kinds of
identifier are therefore modelled as `Nat`.

Python dictionaries are modelled as association lists (`List (key × value)`,
first binding wins) and Python sets as lists whose operations preserve the
set reading (membership is the observable).  A mutating method of the class
becomes a function `AMState → args → AMState × Option Err`: the returned
state is the state of the object when control leaves the method, whether
normally or by a raised exception, which mirrors Python's mutate-in-place
semantics; `Err` identifies the raise site.
-/

/-- `dict.get` / `x in dict` combined: first binding for a key, if any. -/
def alLookup {α β : Type} [DecidableEq α] : List (α × β) → α → Option β
  | [], _ => none
  | (k, v) :: rest, a => if k = a then some v else alLookup rest a

/-- `dict.pop(key)` (also used for pop-if-present): drop the bindings of a key. -/
def alRemoveKey {α β : Type} [DecidableEq α] : List (α × β) → α → List (α × β)
  | [], _ => []
  | (k, v) :: rest, a =>
      if k = a then alRemoveKey rest a else (k, v) :: alRemoveKey rest a

/-- In-place update of the value bound to a key (`dict[k].mutate(...)`). -/
def alMapRow {α β : Type} [DecidableEq α] : List (α × β) → α → (β → β) → List (α × β)
  | [], _, _ => []
  | (k, v) :: rest, a, f =>
      if k = a then (k, f v) :: rest else (k, v) :: alMapRow rest a f

/-- Python `set.add`: insert if absent. -/
def setAdd {γ : Type} [DecidableEq γ] (l : List γ) (x : γ) : List γ :=
  if x ∈ l then l else l ++ [x]

/-- Python `set.remove` on a present element: drop the element. -/
def setRemove {γ : Type} [DecidableEq γ] : List γ → γ → List γ
  | [], _ => []
  | y :: rest, x => if y = x then setRemove rest x else y :: setRemove rest x

/-- Python `set.union`. -/
def listUnion {γ : Type} [DecidableEq γ] (a b : List γ) : List γ :=
  a ++ b.filter (fun x => decide (x ∉ a))

/-- The nested lookup `m[key][entity_type]` used by entity-mapping code:
empty when either row is missing. -/
def entityRow (m : List (Nat × List (Nat × List Nat))) (key entity_type : Nat) : List Nat :=
  (alLookup ((alLookup m key).getD []) entity_type).getD []

/-- The nine stores created in `AccessManager.__init__`. -/
structure AMState where
  users : List Nat
  groups : List Nat
  user_to_group_graph_edges : List (Nat × List Nat)
  group_to_group_graph_edges : List (Nat × List Nat)
  user_to_component_map : List (Nat × List (Nat × Nat))
  group_to_component_map : List (Nat × List (Nat × Nat))
  entities : List (Nat × List Nat)
  user_to_entity_map : List (Nat × List (Nat × List Nat))
  group_to_entity_map : List (Nat × List (Nat × List Nat))
deriving DecidableEq, Repr

/-- The formal-parameter name carried by a does-not-exist error message. -/
inductive Arg where
  | user | group | from_group | to_group | entity_type | entity | start_user
deriving DecidableEq, Repr

/-- Raise sites of the class.  The Python code raises `ValueError` with a
formatted message (`_raise_user_doesnt_exist_error` and friends, plus inline
raises), a plain `Exception` from `_CheckForCircularReferenceTraverserAction`,
and an `AttributeError` where it calls the non-existent method `dict.remove`;
the constructors record the identifying data of each message. -/
inductive Err where
  | userDoesntExist : Nat → Arg → Err
  | groupDoesntExist : Nat → Arg → Err
  | entityTypeDoesntExist : Nat → Arg → Err
  | entityDoesntExist : Nat → Arg → Err
  | mappingAlreadyExists : Err
  | mappingDoesntExist : Err
  | sameGroupArgs : Err
  | circularReference : Nat → Nat → Err
  | attributeError : Err
deriving DecidableEq, Repr

/-- Adjacency of a vertex in an edge dictionary (`edges[g]` when present). -/
def neighborsOf (E : List (Nat × List Nat)) (a : Nat) : List Nat :=
  (alLookup E a).getD []

/-- The edge relation of an edge dictionary. -/
def EdgeRel (E : List (Nat × List Nat)) (a b : Nat) : Prop :=
  b ∈ neighborsOf E a

instance (E : List (Nat × List Nat)) (a b : Nat) : Decidable (EdgeRel E a b) := by
  unfold EdgeRel; infer_instance

/-- Reflexive-transitive closure of the edge relation: `b` is reachable from
`a` by zero or more edges. -/
inductive ReachesP (E : List (Nat × List Nat)) : Nat → Nat → Prop where
  | refl (a : Nat) : ReachesP E a a
  | head {a b c : Nat} : EdgeRel E a b → ReachesP E b c → ReachesP E a c

/-- Acyclicity of an edge dictionary: no edge closes a directed cycle. -/
def Acyclic (E : List (Nat × List Nat)) : Prop :=
  ∀ a b, EdgeRel E a b → ReachesP E b a → False

/-- Outcome of `_traverse_user_and_group_graph_from_group_recurse`: a normal
return carrying the visitor state and the returned `keep_traversing` flag, a
propagated exception from the visitor, or exhaustion of the fuel that the
shallow embedding adds to bound the recursion (`out` has no counterpart in
the Python code, which recurses without bound). -/
inductive TravResult (σ ε : Type) where
  | ok : σ → Bool → TravResult σ ε
  | exn : ε → TravResult σ ε
  | out : TravResult σ ε
deriving DecidableEq, Repr

/-- The `for next_edge_group in self._group_to_group_graph_edges[next_group]`
loop of `_traverse_user_and_group_graph_from_group_recurse`, with the
recursive call abstracted as `recurse`.  Faithful details: the recursion is
entered whenever the neighbour is not in `visited` — even when the current
`keep_traversing` is already `false` — and the `break` test runs after every
iteration, on the stale flag when the neighbour was skipped. -/
def travLoop {σ ε : Type} (recurse : Nat → List Nat → σ → TravResult σ ε) :
    List Nat → List Nat → σ → Bool → TravResult σ ε
  | [], _, s, k => .ok s k
  | n :: rest, visited, s, k =>
      if n ∈ visited then
        if k = false then .ok s k else travLoop recurse rest visited s k
      else
        match recurse n visited s with
        | .out => .out
        | .exn e => .exn e
        | .ok s' k' =>
            if k' = false then .ok s' k' else travLoop recurse rest visited s' k'

/-- `_traverse_user_and_group_graph_from_group_recurse`: invoke the visitor on
`next_group`, then walk its outbound edges.  The `visited` set is received and
passed on unchanged — exactly as in the source, where nothing is ever added
to `visited_groups`.  Defined by `Nat.rec` on the added fuel so that it
reduces definitionally. -/
def traverseRecurse {σ ε : Type} (E : List (Nat × List Nat))
    (invoke : σ → Nat → Except ε (σ × Bool)) (fuel : Nat) :
    Nat → List Nat → σ → TravResult σ ε :=
  Nat.rec (motive := fun _ => Nat → List Nat → σ → TravResult σ ε)
    (fun _ _ _ => .out)
    (fun _ ih g visited s =>
      match invoke s g with
      | .error e => .exn e
      | .ok (s1, k1) =>
          match alLookup E g with
          | none => .ok s1 k1
          | some ns => travLoop ih ns visited s1 k1)
    fuel

/-- Outcome of `_traverse_user_and_group_graph_from_user`. -/
inductive FromUserResult (σ ε : Type) where
  | notFoundUser : FromUserResult σ ε
  | ok : σ → FromUserResult σ ε
  | exn : ε → FromUserResult σ ε
  | out : FromUserResult σ ε
deriving DecidableEq, Repr

/-- The `for next_edge_group in self._user_to_group_graph_edges[start_user]`
loop of `_traverse_user_and_group_graph_from_user`: each directly joined group
is recursed into with the shared `visited` set, and the value returned by the
recursion is discarded. -/
def traverseFromUserLoop {σ ε : Type} (E : List (Nat × List Nat))
    (invoke : σ → Nat → Except ε (σ × Bool)) (fuel : Nat) :
    List Nat → List Nat → σ → FromUserResult σ ε
  | [], _, s => .ok s
  | g :: rest, visited, s =>
      match traverseRecurse E invoke fuel g visited s with
      | .out => .out
      | .exn e => .exn e
      | .ok s' _ => traverseFromUserLoop E invoke fuel rest visited s'

/-- `_traverse_user_and_group_graph_from_user`: raise if the start user does
not exist, return at once if it has no outbound edges, otherwise create the
empty `visited_groups` set and recurse into each directly joined group. -/
def traverse_user_and_group_graph_from_user {σ ε : Type} (st : AMState)
    (invoke : σ → Nat → Except ε (σ × Bool)) (fuel : Nat) (start_user : Nat)
    (s : σ) : FromUserResult σ ε :=
  if start_user ∈ st.users then
    match alLookup st.user_to_group_graph_edges start_user with
    | none => .ok s
    | some gs => traverseFromUserLoop st.group_to_group_graph_edges invoke fuel gs [] s
  else .notFoundUser

/-- Fuel sufficient for every traversal of an acyclic edge dictionary: the
recursion depth is bounded by the number of vertices with outbound edges. -/
def fuelBound (E : List (Nat × List Nat)) : Nat :=
  E.length + 1

/-- `_CheckForAccessTraverserAction.invoke` and
`_CheckForEntityMappingTraverserAction.invoke` share one shape: on the first
group satisfying `hit` they set the found-flag and return `False`, otherwise
they leave the flag and return `True`. -/
def searchInvoke (hit : Nat → Bool) : Bool → Nat → Except Empty (Bool × Bool) :=
  fun s g => if hit g then .ok (true, false) else .ok (s, true)

/-- The membership test of `_CheckForAccessTraverserAction.invoke`:
`group in map and (component, access) in map[group]`. -/
def componentHit (gcm : List (Nat × List (Nat × Nat))) (c a : Nat) : Nat → Bool :=
  fun g => decide ((c, a) ∈ (alLookup gcm g).getD [])

/-- The membership test of `_CheckForEntityMappingTraverserAction.invoke`:
`group in map and entity_type in map[group] and entity in map[group][entity_type]`. -/
def entityHit (gem : List (Nat × List (Nat × List Nat))) (t e : Nat) : Nat → Bool :=
  fun g => decide (e ∈ entityRow gem g t)

/-- `_AddMappedEntitiesToSetTraverserAction.invoke`: union in the entities of
the given type mapped to the group, and always keep traversing. -/
def collectInvoke (gem : List (Nat × List (Nat × List Nat))) (t : Nat) :
    List Nat → Nat → Except Empty (List Nat × Bool) :=
  fun acc g => .ok (listUnion acc (entityRow gem g t), true)

/-- `_CheckForCircularReferenceTraverserAction.invoke`: raise when the visited
group is the group being checked for, otherwise keep traversing. -/
def cycleInvoke (check_group : Nat) : Unit → Nat → Except Unit (Unit × Bool) :=
  fun _ g => if g = check_group then .error () else .ok ((), true)

/-- A visitor that records every group it is invoked on, used to observe how
often the engine visits each group. -/
def traceInvoke : List Nat → Nat → Except Empty (List Nat × Bool) :=
  fun s g => .ok (s ++ [g], true)

/-- `remove_user`: `NotFound` when absent; otherwise pop the user's rows of
`_user_to_component_map` and `_user_to_entity_map` and remove it from
`_users`.  (The source touches no other store.) -/
def remove_user (st : AMState) (user : Nat) : AMState × Option Err :=
  if user ∈ st.users then
    ({ st with
        user_to_component_map := alRemoveKey st.user_to_component_map user,
        user_to_entity_map := alRemoveKey st.user_to_entity_map user,
        users := setRemove st.users user }, none)
  else (st, some (.userDoesntExist user .user))

/-- `remove_group`: `NotFound` when absent; otherwise pop the group's rows of
`_group_to_component_map` and `_group_to_entity_map` and remove it from
`_groups`.  (The source touches no other store.) -/
def remove_group (st : AMState) (group : Nat) : AMState × Option Err :=
  if group ∈ st.groups then
    ({ st with
        group_to_component_map := alRemoveKey st.group_to_component_map group,
        group_to_entity_map := alRemoveKey st.group_to_entity_map group,
        groups := setRemove st.groups group }, none)
  else (st, some (.groupDoesntExist group .group))

/-- The insertion step of `add_group_to_group_mapping`: create an empty row
for `from_group` when it has none, then `set.add` the target group. -/
def addEdgeRow (E : List (Nat × List Nat)) (a b : Nat) : List (Nat × List Nat) :=
  match alLookup E a with
  | none => E ++ [(a, [b])]
  | some _ => alMapRow E a (fun vs => setAdd vs b)

/-- `add_group_to_group_mapping`: the four validation checks in source order,
then the circular-reference traversal from `to_group` over the existing
edges, and only then the insertion of the edge.  Returns `none` on fuel
exhaustion of the embedded traversal. -/
def add_group_to_group_mapping (st : AMState) (fuel : Nat) (from_group to_group : Nat) :
    Option (AMState × Option Err) :=
  if from_group ∉ st.groups then
    some (st, some (.groupDoesntExist from_group .from_group))
  else if to_group ∉ st.groups then
    some (st, some (.groupDoesntExist to_group .to_group))
  else if from_group = to_group then
    some (st, some .sameGroupArgs)
  else if to_group ∈ neighborsOf st.group_to_group_graph_edges from_group then
    some (st, some .mappingAlreadyExists)
  else
    match traverseRecurse st.group_to_group_graph_edges (cycleInvoke from_group) fuel
        to_group [] () with
    | .out => none
    | .exn _ => some (st, some (.circularReference from_group to_group))
    | .ok _ _ =>
        some ({ st with group_to_group_graph_edges :=
                  addEdgeRow st.group_to_group_graph_edges from_group to_group }, none)

/-- `remove_user_to_application_component_and_access_level_mapping`: when the
mapping exists it is removed from the user's row, and if the row became empty
the source then calls `self._user_to_component_map.remove(user)` — a method
`dict` does not have — raising `AttributeError` with the pair already gone. -/
def remove_user_to_application_component_and_access_level_mapping
    (st : AMState) (user application_component access_level : Nat) :
    AMState × Option Err :=
  if user ∉ st.users then (st, some (.userDoesntExist user .user))
  else
    match alLookup st.user_to_component_map user with
    | some pairs =>
        if (application_component, access_level) ∈ pairs then
          let pairs' := setRemove pairs (application_component, access_level)
          let st' := { st with user_to_component_map :=
                        alMapRow st.user_to_component_map user (fun _ => pairs') }
          if pairs'.length = 0 then (st', some .attributeError) else (st', none)
        else (st, some .mappingDoesntExist)
    | none => (st, some .mappingDoesntExist)

/-- `remove_group_to_application_component_and_access_level_mapping`: the
group variant, with the same call to the non-existent `dict.remove` when the
row becomes empty. -/
def remove_group_to_application_component_and_access_level_mapping
    (st : AMState) (group application_component access_level : Nat) :
    AMState × Option Err :=
  if group ∉ st.groups then (st, some (.groupDoesntExist group .group))
  else
    match alLookup st.group_to_component_map group with
    | some pairs =>
        if (application_component, access_level) ∈ pairs then
          let pairs' := setRemove pairs (application_component, access_level)
          let st' := { st with group_to_component_map :=
                        alMapRow st.group_to_component_map group (fun _ => pairs') }
          if pairs'.length = 0 then (st', some .attributeError) else (st', none)
        else (st, some .mappingDoesntExist)
    | none => (st, some .mappingDoesntExist)

/-- `add_user_to_application_component_and_access_level_mapping`: `NotFound`
for an absent user, `AlreadyExists` for a present pair, else insert the pair
into the user's row, creating the row when absent. -/
def add_user_to_application_component_and_access_level_mapping
    (st : AMState) (user application_component access_level : Nat) :
    AMState × Option Err :=
  if user ∉ st.users then (st, some (.userDoesntExist user .user))
  else
    match alLookup st.user_to_component_map user with
    | some pairs =>
        if (application_component, access_level) ∈ pairs then
          (st, some .mappingAlreadyExists)
        else
          ({ st with user_to_component_map :=
                (alMapRow st.user_to_component_map user
                  (fun ps => setAdd ps (application_component, access_level))) }, none)
    | none =>
        ({ st with user_to_component_map :=
              st.user_to_component_map ++ [(user, [(application_component, access_level)])] },
         none)

/-- `has_access_to_application_component`: `False` for an unknown user, `True`
on a direct mapping, otherwise the result of the traversal with the
`_CheckForAccessTraverserAction` visitor.  `none` only on fuel exhaustion of
the embedded traversal. -/
def has_access_to_application_component (st : AMState) (fuel : Nat)
    (user application_component access_level : Nat) : Option Bool :=
  if user ∈ st.users then
    if (application_component, access_level) ∈ (alLookup st.user_to_component_map user).getD [] then
      some true
    else
      match traverse_user_and_group_graph_from_user st
          (searchInvoke (componentHit st.group_to_component_map application_component access_level))
          fuel user false with
      | .ok b => some b
      | .exn e => e.elim
      | .notFoundUser => none
      | .out => none
  else some false

/-- Outcome of a query that can raise, return a value, or (embedding only)
exhaust its fuel. -/
inductive QRes (α : Type) where
  | err : Err → QRes α
  | out : QRes α
  | ok : α → QRes α
deriving DecidableEq, Repr

/-- `has_access_to_entity`: entity-type and entity validation first, then
`False` for an unknown user, `True` on a direct mapping, otherwise the result
of the traversal with the `_CheckForEntityMappingTraverserAction` visitor. -/
def has_access_to_entity (st : AMState) (fuel : Nat) (user entity_type entity : Nat) :
    QRes Bool :=
  match alLookup st.entities entity_type with
  | none => .err (.entityTypeDoesntExist entity_type .entity_type)
  | some es =>
      if entity ∉ es then .err (.entityDoesntExist entity .entity)
      else if user ∉ st.users then .ok false
      else if entity ∈ entityRow st.user_to_entity_map user entity_type then
        .ok true
      else
        match traverse_user_and_group_graph_from_user st
            (searchInvoke (entityHit st.group_to_entity_map entity_type entity))
            fuel user false with
        | .ok b => .ok b
        | .exn e => e.elim
        | .notFoundUser => .out
        | .out => .out

/-- `get_user_to_entity_mappings_for_user_and_entity_type`: user and
entity-type existence checks, then the user's entity set of that type, empty
when either row is missing. -/
def get_user_to_entity_mappings_for_user_and_entity_type
    (st : AMState) (user entity_type : Nat) : Except Err (List Nat) :=
  if user ∉ st.users then .error (.userDoesntExist user .user)
  else if (alLookup st.entities entity_type).isNone then
    .error (.entityTypeDoesntExist entity_type .entity_type)
  else .ok (entityRow st.user_to_entity_map user entity_type)

/-- `get_accessible_entities`: user and entity-type existence checks, the
user's direct entity set, the traversal with the
`_AddMappedEntitiesToSetTraverserAction` visitor, and the union of the two. -/
def get_accessible_entities (st : AMState) (fuel : Nat) (user entity_type : Nat) :
    QRes (List Nat) :=
  if user ∉ st.users then .err (.userDoesntExist user .user)
  else if (alLookup st.entities entity_type).isNone then
    .err (.entityTypeDoesntExist entity_type .entity_type)
  else
    let user_mapped := entityRow st.user_to_entity_map user entity_type
    match traverse_user_and_group_graph_from_user st
        (collectInvoke st.group_to_entity_map entity_type) fuel user [] with
    | .ok acc => .ok (listUnion user_mapped acc)
    | .exn e => e.elim
    | .notFoundUser => .out
    | .out => .out

/-- A paused generator returned by calling the generator function
`get_user_to_entity_mappings_for_user`: the call itself runs none of the
body, it only captures the receiver and the argument. -/
structure UserEntityMappingsGenerator where
  st : AMState
  user : Nat
deriving DecidableEq, Repr

/-- Modelled from the source semantics of Python generator functions:
`get_user_to_entity_mappings_for_user` contains `yield`, so calling it
executes no statement of its body and cannot raise; it returns a generator
object. -/
def get_user_to_entity_mappings_for_user (st : AMState) (user : Nat) :
    UserEntityMappingsGenerator :=
  ⟨st, user⟩

/-- Modelled from the source semantics of Python generator functions: the
body of `get_user_to_entity_mappings_for_user` runs when the generator is
first advanced; it checks user existence (raising `NotFound`) and then yields
the user's `(entity_type, entity)` pairs. -/
def UserEntityMappingsGenerator.advance (g : UserEntityMappingsGenerator) :
    Except Err (List (Nat × Nat)) :=
  if g.user ∉ g.st.users then .error (.userDoesntExist g.user .user)
  else .ok ((((alLookup g.st.user_to_entity_map g.user).getD []).map
      (fun p => p.2.map (fun e => (p.1, e)))).flatten)

/-- A paused generator returned by calling the generator function
`get_group_to_entity_mappings_for_group`. -/
structure GroupEntityMappingsGenerator where
  st : AMState
  group : Nat
deriving DecidableEq, Repr

/-- Modelled from the source semantics of Python generator functions:
`get_group_to_entity_mappings_for_group` contains `yield`, so calling it
executes no statement of its body and cannot raise. -/
def get_group_to_entity_mappings_for_group (st : AMState) (group : Nat) :
    GroupEntityMappingsGenerator :=
  ⟨st, group⟩

/-- Modelled from the source semantics of Python generator functions: the
body of `get_group_to_entity_mappings_for_group` runs when the generator is
first advanced; it checks group existence (raising `NotFound`) and then
yields the group's `(entity_type, entity)` pairs. -/
def GroupEntityMappingsGenerator.advance (g : GroupEntityMappingsGenerator) :
    Except Err (List (Nat × Nat)) :=
  if g.group ∉ g.st.groups then .error (.groupDoesntExist g.group .group)
  else .ok ((((alLookup g.st.group_to_entity_map g.group).getD []).map
      (fun p => p.2.map (fun e => (p.1, e)))).flatten)

/-- The chain of ancestors on the depth-first recursion stack: `DStack E p g`
says the groups in `p` form an edge path ending one edge above `g` (head of
`p` is the immediate parent of `g`). -/
inductive DStack (E : List (Nat × List Nat)) : List Nat → Nat → Prop where
  | nil (g : Nat) : DStack E [] g
  | cons {p : List Nat} {h g : Nat} : DStack E p h → EdgeRel E h g → DStack E (h :: p) g

/-- Some group satisfying `hit` is reachable from `g` over the group graph. -/
def ReachHit (E : List (Nat × List Nat)) (hit : Nat → Bool) (g : Nat) : Prop :=
  ∃ g', ReachesP E g g' ∧ hit g' = true

/-- The entity-referential-integrity part of the global invariants: every
entity recorded in a user or group entity map belongs to the declared entity
set of its type. -/
def EntityRefIntegrity (st : AMState) : Prop :=
  (∀ p ∈ st.user_to_entity_map, ∀ q ∈ p.2, ∀ e ∈ q.2, e ∈ (alLookup st.entities q.1).getD []) ∧
  (∀ p ∈ st.group_to_entity_map, ∀ q ∈ p.2, ∀ e ∈ q.2, e ∈ (alLookup st.entities q.1).getD [])

/-- A state with one user joined to group 1 and a diamond 1→{2,3}→4 in the
group graph. -/
def stDiamond : AMState :=
  { users := [0], groups := [1, 2, 3, 4],
    user_to_group_graph_edges := [(0, [1])],
    group_to_group_graph_edges := [(1, [2, 3]), (2, [4]), (3, [4])],
    user_to_component_map := [], group_to_component_map := [], entities := [],
    user_to_entity_map := [], group_to_entity_map := [] }

/-- A state in which user 0 is a member of group 1. -/
def stUserInGroup : AMState :=
  { users := [0], groups := [1],
    user_to_group_graph_edges := [(0, [1])],
    group_to_group_graph_edges := [],
    user_to_component_map := [], group_to_component_map := [], entities := [],
    user_to_entity_map := [], group_to_entity_map := [] }

/-- A state in which group 1 has an outbound edge to group 2. -/
def stGroupEdge : AMState :=
  { users := [], groups := [1, 2],
    user_to_group_graph_edges := [],
    group_to_group_graph_edges := [(1, [2])],
    user_to_component_map := [], group_to_component_map := [], entities := [],
    user_to_entity_map := [], group_to_entity_map := [] }

/-- A state in which user 0 has exactly one component mapping, the pair
(5, 6). -/
def stOnePair : AMState :=
  { users := [0], groups := [],
    user_to_group_graph_edges := [],
    group_to_group_graph_edges := [],
    user_to_component_map := [(0, [(5, 6)])],
    group_to_component_map := [], entities := [],
    user_to_entity_map := [], group_to_entity_map := [] }

/-- A state containing user 0 with no component mappings. -/
def stOneUser : AMState :=
  { users := [0], groups := [],
    user_to_group_graph_edges := [],
    group_to_group_graph_edges := [],
    user_to_component_map := [], group_to_component_map := [], entities := [],
    user_to_entity_map := [], group_to_entity_map := [] }

/-- A state for exercising the queries: user 7 in group 1, entity type 3 with
entities {4, 5}, entity 4 mapped to group 1, entity 5 mapped directly to
user 7. -/
def stQuery : AMState :=
  { users := [7], groups := [1],
    user_to_group_graph_edges := [(7, [1])],
    group_to_group_graph_edges := [],
    user_to_component_map := [(7, [(1, 2)])],
    group_to_component_map := [(1, [(8, 9)])],
    entities := [(3, [4, 5])],
    user_to_entity_map := [(7, [(3, [5])])],
    group_to_entity_map := [(1, [(3, [4])])] }

theorem alLookup_alRemoveKey_self {α β : Type} [DecidableEq α] (l : List (α × β)) (a : α) :
    alLookup (alRemoveKey l a) a = none := by
  induction l with
  | nil => rfl
  | cons p rest ih =>
      obtain ⟨k, v⟩ := p
      by_cases hk : k = a
      · simp [alRemoveKey, hk, ih]
      · simp [alRemoveKey, alLookup, hk, ih]

theorem alLookup_mem {α β : Type} [DecidableEq α] {l : List (α × β)} {a : α} {b : β}
    (h : alLookup l a = some b) : (a, b) ∈ l := by
  induction l with
  | nil => simp [alLookup] at h
  | cons p rest ih =>
      obtain ⟨k, v⟩ := p
      by_cases hk : k = a
      · subst hk
        simp [alLookup] at h
        simp [h]
      · simp [alLookup, hk] at h
        exact List.mem_cons_of_mem _ (ih h)

theorem alLookup_key_mem {α β : Type} [DecidableEq α] {l : List (α × β)} {a : α} {b : β}
    (h : alLookup l a = some b) : a ∈ l.map Prod.fst := by
  have := alLookup_mem h
  exact List.mem_map.2 ⟨(a, b), this, rfl⟩

theorem alLookup_append {α β : Type} [DecidableEq α] (l₁ l₂ : List (α × β)) (a : α) :
    alLookup (l₁ ++ l₂) a =
      match alLookup l₁ a with
      | some v => some v
      | none => alLookup l₂ a := by
  induction l₁ with
  | nil => simp [alLookup]
  | cons p rest ih =>
      obtain ⟨k, v⟩ := p
      by_cases hk : k = a
      · simp [alLookup, hk]
      · simp [alLookup, hk, ih]

theorem alLookup_alMapRow {α β : Type} [DecidableEq α] (l : List (α × β)) (a : α)
    (f : β → β) (x : α) :
    alLookup (alMapRow l a f) x =
      if x = a then (alLookup l a).map f else alLookup l x := by
  induction l with
  | nil => by_cases hx : x = a <;> simp [alMapRow, alLookup, hx]
  | cons p rest ih =>
      obtain ⟨k, v⟩ := p
      by_cases hk : k = a
      · subst hk
        by_cases hx : x = k
        · subst hx
          simp [alMapRow, alLookup]
        · simp [alMapRow, alLookup, hx, Ne.symm hx]
      · by_cases hx : x = k
        · subst hx
          simp [alMapRow, alLookup, hk]
        · simp [alMapRow, alLookup, hk, hx, Ne.symm hx, ih]

theorem mem_setAdd {γ : Type} [DecidableEq γ] {l : List γ} {x y : γ} :
    x ∈ setAdd l y ↔ x ∈ l ∨ x = y := by
  unfold setAdd
  by_cases hy : y ∈ l
  · simp only [if_pos hy]
    constructor
    · exact Or.inl
    · rintro (h | rfl)
      · exact h
      · exact hy
  · simp [if_neg hy]

theorem mem_setRemove {γ : Type} [DecidableEq γ] {l : List γ} {x y : γ} :
    x ∈ setRemove l y ↔ x ∈ l ∧ x ≠ y := by
  induction l with
  | nil => simp [setRemove]
  | cons z rest ih =>
      by_cases hz : z = y
      · subst hz
        have h1 : setRemove (z :: rest) z = setRemove rest z := by simp [setRemove]
        rw [h1, ih]
        simp only [List.mem_cons]
        constructor
        · rintro ⟨h, hne⟩
          exact ⟨Or.inr h, hne⟩
        · rintro ⟨hc, hne⟩
          rcases hc with rfl | h
          · exact absurd rfl hne
          · exact ⟨h, hne⟩
      · have h1 : setRemove (z :: rest) y = z :: setRemove rest y := by simp [setRemove, hz]
        rw [h1]
        simp only [List.mem_cons, ih]
        constructor
        · rintro (rfl | ⟨h, hne⟩)
          · exact ⟨Or.inl rfl, hz⟩
          · exact ⟨Or.inr h, hne⟩
        · rintro ⟨hc, hne⟩
          rcases hc with rfl | h
          · exact Or.inl rfl
          · exact Or.inr ⟨h, hne⟩

theorem mem_listUnion {γ : Type} [DecidableEq γ] {a b : List γ} {x : γ} :
    x ∈ listUnion a b ↔ x ∈ a ∨ x ∈ b := by
  unfold listUnion
  by_cases hx : x ∈ a
  · simp [hx]
  · simp [hx, List.mem_filter]

theorem traverseRecurse_zero {σ ε : Type} (E : List (Nat × List Nat))
    (invoke : σ → Nat → Except ε (σ × Bool)) (g : Nat) (visited : List Nat) (s : σ) :
    traverseRecurse E invoke 0 g visited s = .out := rfl

theorem traverseRecurse_succ {σ ε : Type} (E : List (Nat × List Nat))
    (invoke : σ → Nat → Except ε (σ × Bool)) (fuel : Nat) (g : Nat)
    (visited : List Nat) (s : σ) :
    traverseRecurse E invoke (fuel + 1) g visited s =
      (match invoke s g with
       | .error e => .exn e
       | .ok (s1, k1) =>
           match alLookup E g with
           | none => .ok s1 k1
           | some ns => travLoop (traverseRecurse E invoke fuel) ns visited s1 k1) := rfl

theorem ReachesP.trans {E : List (Nat × List Nat)} {a b c : Nat}
    (h₁ : ReachesP E a b) (h₂ : ReachesP E b c) : ReachesP E a c := by
  induction h₁ with
  | refl => exact h₂
  | head e _ ih => exact .head e (ih h₂)

theorem ReachesP.snoc {E : List (Nat × List Nat)} {a b c : Nat}
    (h : ReachesP E a b) (e : EdgeRel E b c) : ReachesP E a c :=
  h.trans (.head e (.refl c))

theorem reaches_cases {E : List (Nat × List Nat)} {a c : Nat} (h : ReachesP E a c) :
    a = c ∨ ∃ b, EdgeRel E a b ∧ ReachesP E b c := by
  cases h with
  | refl => exact Or.inl rfl
  | head e h' => exact Or.inr ⟨_, e, h'⟩

theorem edge_key_mem {E : List (Nat × List Nat)} {a b : Nat} (h : EdgeRel E a b) :
    a ∈ E.map Prod.fst := by
  unfold EdgeRel neighborsOf at h
  cases he : alLookup E a with
  | none => rw [he] at h; simp at h
  | some vs => exact alLookup_key_mem he

theorem acyclic_nil : Acyclic [] := by
  intro a b h _
  simp [EdgeRel, neighborsOf, alLookup] at h

theorem neighborsOf_addEdgeRow (E : List (Nat × List Nat)) (a b x : Nat) :
    neighborsOf (addEdgeRow E a b) x =
      if x = a then setAdd (neighborsOf E a) b else neighborsOf E x := by
  unfold addEdgeRow
  cases ha : alLookup E a with
  | none =>
      unfold neighborsOf
      rw [alLookup_append]
      by_cases hx : x = a
      · subst hx
        rw [ha]
        simp [alLookup, ha, setAdd]
      · cases hEx : alLookup E x with
        | none => simp [hEx, alLookup, hx, Ne.symm hx]
        | some vs => simp [hEx, hx]
  | some vs =>
      unfold neighborsOf
      rw [alLookup_alMapRow]
      by_cases hx : x = a
      · subst hx
        simp [ha]
      · simp [hx]

theorem EdgeRel_addEdgeRow {E : List (Nat × List Nat)} {a b x y : Nat} :
    EdgeRel (addEdgeRow E a b) x y ↔ EdgeRel E x y ∨ (x = a ∧ y = b) := by
  unfold EdgeRel
  rw [neighborsOf_addEdgeRow]
  by_cases hx : x = a
  · subst hx
    rw [if_pos rfl, mem_setAdd]
    constructor
    · rintro (h | rfl)
      · exact Or.inl h
      · exact Or.inr ⟨rfl, rfl⟩
    · rintro (h | ⟨-, rfl⟩)
      · exact Or.inl h
      · exact Or.inr rfl
  · rw [if_neg hx]
    constructor
    · exact Or.inl
    · rintro (h | ⟨rfl, -⟩)
      · exact h
      · exact absurd rfl hx

theorem reaches_addEdgeRow_decompose {E : List (Nat × List Nat)} {a b x y : Nat}
    (h : ReachesP (addEdgeRow E a b) x y) :
    ReachesP E x y ∨ (ReachesP E x a ∧ ReachesP E b y) := by
  induction h with
  | refl => exact Or.inl (.refl _)
  | head e _ ih =>
      rcases EdgeRel_addEdgeRow.1 e with he | ⟨rfl, rfl⟩
      · rcases ih with h₁ | ⟨h₁, h₂⟩
        · exact Or.inl (.head he h₁)
        · exact Or.inr ⟨.head he h₁, h₂⟩
      · rcases ih with h₁ | ⟨-, h₂⟩
        · exact Or.inr ⟨.refl _, h₁⟩
        · exact Or.inr ⟨.refl _, h₂⟩

theorem acyclic_addEdgeRow {E : List (Nat × List Nat)} {a b : Nat}
    (hacyc : Acyclic E) (hnr : ¬ ReachesP E b a) : Acyclic (addEdgeRow E a b) := by
  intro x y he hr
  rcases EdgeRel_addEdgeRow.1 he with hxy | ⟨rfl, rfl⟩
  · rcases reaches_addEdgeRow_decompose hr with h₁ | ⟨h₁, h₂⟩
    · exact hacyc x y hxy h₁
    · exact hnr (h₂.trans ((ReachesP.snoc (.refl x) hxy).trans h₁))
  · rcases reaches_addEdgeRow_decompose hr with h₁ | ⟨h₁, -⟩
    · exact hnr h₁
    · exact hnr h₁

theorem DStack.mem_reaches {E : List (Nat × List Nat)} {p : List Nat} {g : Nat}
    (h : DStack E p g) : ∀ a ∈ p, ReachesP E a g := by
  induction h with
  | nil => intro a ha; simp at ha
  | cons _ e ih =>
      intro a ha
      rcases List.mem_cons.1 ha with rfl | ha
      · exact .head e (.refl _)
      · exact (ih a ha).snoc e

theorem DStack.mem_keys {E : List (Nat × List Nat)} {p : List Nat} {g : Nat}
    (h : DStack E p g) : ∀ a ∈ p, a ∈ E.map Prod.fst := by
  induction h with
  | nil => intro a ha; simp at ha
  | cons _ e ih =>
      intro a ha
      rcases List.mem_cons.1 ha with rfl | ha
      · exact edge_key_mem e
      · exact ih a ha

theorem stack_length_le {E : List (Nat × List Nat)} {p : List Nat} {g : Nat}
    (h : DStack E p g) (hnd : p.Nodup) : p.length ≤ E.length := by
  have hsub : p ⊆ E.map Prod.fst := fun a ha => h.mem_keys a ha
  have := (hnd.subperm hsub).length_le
  simpa using this

theorem travLoop_ne_out {σ ε : Type} {R : Nat → List Nat → σ → TravResult σ ε}
    {ns : List Nat} (hr : ∀ n ∈ ns, ∀ v s, R n v s ≠ .out) :
    ∀ visited s k, travLoop R ns visited s k ≠ .out := by
  induction ns with
  | nil => intro visited s k; simp [travLoop]
  | cons n rest ih =>
      intro visited s k
      have hrest : ∀ n' ∈ rest, ∀ v s, R n' v s ≠ .out :=
        fun n' hn' => hr n' (List.mem_cons_of_mem n hn')
      unfold travLoop
      by_cases hv : n ∈ visited
      · rw [if_pos hv]
        by_cases hk : k = false
        · simp [hk]
        · simp only [if_neg hk]
          exact ih hrest visited s k
      · rw [if_neg hv]
        cases hR : R n visited s with
        | out => exact absurd hR (hr n (List.mem_cons_self n rest) visited s)
        | exn e => simp
        | ok s' k' =>
            by_cases hk : k' = false
            · simp [hk]
            · simp only [if_neg hk]
              exact ih hrest visited s' k'

theorem traverseRecurse_ne_out {σ ε : Type} {E : List (Nat × List Nat)}
    {invoke : σ → Nat → Except ε (σ × Bool)} (hacyc : Acyclic E) :
    ∀ fuel (p : List Nat) (g : Nat), DStack E p g → p.Nodup → g ∉ p →
      E.length + 1 ≤ fuel + p.length →
      ∀ visited s, traverseRecurse E invoke fuel g visited s ≠ .out := by
  intro fuel
  induction fuel with
  | zero =>
      intro p g hp hnd _ hbound _ _
      have := stack_length_le hp hnd
      omega
  | succ fuel ih =>
      intro p g hp hnd hgp hbound visited s
      rw [traverseRecurse_succ]
      cases invoke s g with
      | error e => simp
      | ok r =>
          obtain ⟨s1, k1⟩ := r
          cases hE : alLookup E g with
          | none => simp
          | some ns =>
              simp only
              apply travLoop_ne_out
              intro n hn v s'
              have hedge : EdgeRel E g n := by
                unfold EdgeRel neighborsOf
                rw [hE]
                exact hn
              have hnotin : n ∉ g :: p := by
                intro hmem
                rcases List.mem_cons.1 hmem with heq | hmem
                · exact hacyc _ _ hedge (heq ▸ ReachesP.refl n)
                · exact hacyc _ _ hedge (hp.mem_reaches n hmem)
              refine ih (g :: p) n (.cons hp hedge) (List.nodup_cons.2 ⟨hgp, hnd⟩)
                hnotin ?_ v s'
              simp only [List.length_cons]
              omega

theorem traverseFromUserLoop_ne_out {σ ε : Type} {E : List (Nat × List Nat)}
    {invoke : σ → Nat → Except ε (σ × Bool)} {fuel : Nat} {gs : List Nat}
    (hr : ∀ g ∈ gs, ∀ v s, traverseRecurse E invoke fuel g v s ≠ .out) :
    ∀ visited s, traverseFromUserLoop E invoke fuel gs visited s ≠ .out := by
  induction gs with
  | nil => intro visited s; simp [traverseFromUserLoop]
  | cons g rest ih =>
      intro visited s
      unfold traverseFromUserLoop
      cases hR : traverseRecurse E invoke fuel g visited s with
      | out => exact absurd hR (hr g (List.mem_cons_self g rest) visited s)
      | exn e => simp
      | ok s' k' =>
          exact ih (fun g' hg' => hr g' (List.mem_cons_of_mem g hg')) visited s'

theorem traverseFromUserLoop_ne_notFound {σ ε : Type} {E : List (Nat × List Nat)}
    {invoke : σ → Nat → Except ε (σ × Bool)} {fuel : Nat} :
    ∀ (gs visited : List Nat) (s : σ),
      traverseFromUserLoop E invoke fuel gs visited s ≠ .notFoundUser := by
  intro gs
  induction gs with
  | nil => intro visited s; simp [traverseFromUserLoop]
  | cons g rest ih =>
      intro visited s
      unfold traverseFromUserLoop
      cases traverseRecurse E invoke fuel g visited s with
      | out => simp
      | exn e => simp
      | ok s' k' => exact ih visited s'

theorem reachHit_none {E : List (Nat × List Nat)} {hit : Nat → Bool} {g : Nat}
    (hE : alLookup E g = none) (hg : hit g = false) : ¬ ReachHit E hit g := by
  rintro ⟨g', hr, hh⟩
  rcases reaches_cases hr with heq | ⟨b, he, -⟩
  · cases heq
    rw [hg] at hh
    simp at hh
  · unfold EdgeRel neighborsOf at he
    rw [hE] at he
    simp at he

theorem reachHit_step {E : List (Nat × List Nat)} {hit : Nat → Bool} {g : Nat}
    {ns : List Nat} (hE : alLookup E g = some ns) (hg : hit g = false) :
    ReachHit E hit g ↔ ∃ n ∈ ns, ReachHit E hit n := by
  constructor
  · rintro ⟨g', hr, hh⟩
    rcases reaches_cases hr with heq | ⟨b, he, hr'⟩
    · cases heq
      rw [hg] at hh
      simp at hh
    · have hb : b ∈ ns := by
        unfold EdgeRel neighborsOf at he
        rw [hE] at he
        exact he
      exact ⟨b, hb, g', hr', hh⟩
  · rintro ⟨n, hn, g', hr, hh⟩
    have he : EdgeRel E g n := by
      unfold EdgeRel neighborsOf
      rw [hE]
      exact hn
    exact ⟨g', .head he hr, hh⟩

theorem reachHit_self {E : List (Nat × List Nat)} {hit : Nat → Bool} {g : Nat}
    (hg : hit g = true) : ReachHit E hit g :=
  ⟨g, .refl g, hg⟩

theorem searchLoop_spec {E : List (Nat × List Nat)} {hit : Nat → Bool}
    {R : Nat → List Nat → Bool → TravResult Bool Empty} :
    ∀ ns : List Nat,
      (∀ n ∈ ns, ∀ s s' k', R n [] s = .ok s' k' →
        ((k' = false → s' = true) ∧ (s' = true ↔ (s = true ∨ ReachHit E hit n)))) →
      ∀ s k s' k', (k = false → s = true) →
        travLoop R ns [] s k = .ok s' k' →
        ((k' = false → s' = true) ∧
         (s' = true ↔ (s = true ∨ ∃ n ∈ ns, ReachHit E hit n))) := by
  intro ns
  induction ns with
  | nil =>
      intro _ s k s' k' hpre hloop
      simp only [travLoop, TravResult.ok.injEq] at hloop
      obtain ⟨rfl, rfl⟩ := hloop
      exact ⟨hpre, by simp⟩
  | cons n rest ih =>
      intro hN s k s' k' hpre hloop
      have hmem : n ∈ n :: rest := List.mem_cons_self n rest
      have hrest := fun n' hn' => hN n' (List.mem_cons_of_mem n hn')
      simp only [travLoop, List.not_mem_nil, if_false] at hloop
      cases hR : R n [] s with
      | out => rw [hR] at hloop; simp at hloop
      | exn e => exact e.elim
      | ok s1 k1 =>
          rw [hR] at hloop
          dsimp only at hloop
          obtain ⟨hk1, hiff1⟩ := hN n hmem s s1 k1 hR
          by_cases hk : k1 = false
          · rw [if_pos hk] at hloop
            simp only [TravResult.ok.injEq] at hloop
            obtain ⟨h1, h2⟩ := hloop
            have hs1 : s1 = true := hk1 hk
            have hs' : s' = true := h1 ▸ hs1
            refine ⟨fun _ => hs', ?_⟩
            constructor
            · intro _
              rcases hiff1.1 hs1 with h | h
              · exact Or.inl h
              · exact Or.inr ⟨n, hmem, h⟩
            · intro _
              exact hs'
          · rw [if_neg hk] at hloop
            obtain ⟨hk', hiff2⟩ := ih hrest s1 k1 s' k' (fun h => absurd h hk) hloop
            refine ⟨hk', ?_⟩
            simp only [List.exists_mem_cons_iff]
            rw [hiff2, hiff1]
            exact or_assoc

theorem searchRecurse_spec {E : List (Nat × List Nat)} {hit : Nat → Bool} :
    ∀ fuel (g : Nat) (s s' : Bool) (k' : Bool),
      traverseRecurse E (searchInvoke hit) fuel g [] s = .ok s' k' →
      ((k' = false → s' = true) ∧ (s' = true ↔ (s = true ∨ ReachHit E hit g))) := by
  intro fuel
  induction fuel with
  | zero => intro g s s' k' h; rw [traverseRecurse_zero] at h; simp at h
  | succ fuel ih =>
      intro g s s' k' h
      rw [traverseRecurse_succ] at h
      by_cases hhit : hit g = true
      · simp only [searchInvoke, hhit, if_true] at h
        cases hE : alLookup E g with
        | none =>
            rw [hE] at h
            simp only [TravResult.ok.injEq] at h
            obtain ⟨rfl, rfl⟩ := h
            exact ⟨fun _ => rfl, by simp [reachHit_self hhit]⟩
        | some ns =>
            rw [hE] at h
            simp only at h
            have hN := fun n (_ : n ∈ ns) => ih n
            obtain ⟨hk', hiff⟩ :=
              searchLoop_spec ns hN true false s' k' (fun _ => rfl) h
            have hs' : s' = true := hiff.2 (Or.inl rfl)
            refine ⟨fun _ => hs', ?_⟩
            simp [hs', reachHit_self hhit]
      · have hhit' : hit g = false := by
          cases hg : hit g
          · rfl
          · exact absurd hg hhit
        simp only [searchInvoke, hhit', if_false] at h
        cases hE : alLookup E g with
        | none =>
            rw [hE] at h
            simp only [TravResult.ok.injEq] at h
            obtain ⟨rfl, rfl⟩ := h
            refine ⟨fun hf => by simp at hf, ?_⟩
            constructor
            · exact Or.inl
            · rintro (hs | hr)
              · exact hs
              · exact absurd hr (reachHit_none hE hhit')
        | some ns =>
            rw [hE] at h
            simp only at h
            have hN := fun n (_ : n ∈ ns) => ih n
            obtain ⟨hk', hiff⟩ :=
              searchLoop_spec ns hN s true s' k' (fun hf => by simp at hf) h
            refine ⟨hk', ?_⟩
            rw [hiff, reachHit_step hE hhit']

theorem fromUserLoop_search_spec {E : List (Nat × List Nat)} {hit : Nat → Bool}
    {fuel : Nat} :
    ∀ (gs : List Nat) (s s' : Bool),
      traverseFromUserLoop E (searchInvoke hit) fuel gs [] s = .ok s' →
      (s' = true ↔ (s = true ∨ ∃ g ∈ gs, ReachHit E hit g)) := by
  intro gs
  induction gs with
  | nil =>
      intro s s' h
      simp only [traverseFromUserLoop, FromUserResult.ok.injEq] at h
      subst h
      simp
  | cons g rest ih =>
      intro s s' h
      unfold traverseFromUserLoop at h
      cases hR : traverseRecurse E (searchInvoke hit) fuel g [] s with
      | out => rw [hR] at h; simp at h
      | exn e => exact e.elim
      | ok s1 k1 =>
          rw [hR] at h
          have hiff1 := (searchRecurse_spec fuel g s s1 k1 hR).2
          have hiff2 := ih s1 s' h
          simp only [List.exists_mem_cons_iff]
          rw [hiff2, hiff1]
          exact or_assoc

theorem reach_none_iff {E : List (Nat × List Nat)} {g : Nat}
    (hE : alLookup E g = none) (P : Nat → Prop) :
    (∃ g', ReachesP E g g' ∧ P g') ↔ P g := by
  constructor
  · rintro ⟨g', hr, hp⟩
    rcases reaches_cases hr with heq | ⟨b, he, -⟩
    · cases heq
      exact hp
    · unfold EdgeRel neighborsOf at he
      rw [hE] at he
      simp at he
  · intro hp
    exact ⟨g, .refl g, hp⟩

theorem reach_step_iff {E : List (Nat × List Nat)} {g : Nat} {ns : List Nat}
    (hE : alLookup E g = some ns) (P : Nat → Prop) :
    (∃ g', ReachesP E g g' ∧ P g') ↔
      (P g ∨ ∃ n ∈ ns, ∃ g', ReachesP E n g' ∧ P g') := by
  constructor
  · rintro ⟨g', hr, hp⟩
    rcases reaches_cases hr with heq | ⟨b, he, hr'⟩
    · cases heq
      exact Or.inl hp
    · have hb : b ∈ ns := by
        unfold EdgeRel neighborsOf at he
        rw [hE] at he
        exact he
      exact Or.inr ⟨b, hb, g', hr', hp⟩
  · rintro (hp | ⟨n, hn, g', hr, hp⟩)
    · exact ⟨g, .refl g, hp⟩
    · have he : EdgeRel E g n := by
        unfold EdgeRel neighborsOf
        rw [hE]
        exact hn
      exact ⟨g', .head he hr, hp⟩

theorem cycleLoop_spec {E : List (Nat × List Nat)} {target : Nat}
    {R : Nat → List Nat → Unit → TravResult Unit Unit} :
    ∀ ns : List Nat,
      (∀ n ∈ ns,
        (∀ (u : Unit) (k' : Bool), R n [] () = .ok u k' → (k' = true ∧ ¬ ReachesP E n target)) ∧
        (∀ e : Unit, R n [] () = .exn e → ReachesP E n target)) →
      (∀ (u : Unit) (k k' : Bool), k = true → travLoop R ns [] () k = .ok u k' →
        (k' = true ∧ ∀ n ∈ ns, ¬ ReachesP E n target)) ∧
      (∀ (e : Unit) (k : Bool), travLoop R ns [] () k = .exn e →
        ∃ n ∈ ns, ReachesP E n target) := by
  intro ns
  induction ns with
  | nil =>
      intro _
      constructor
      · intro u k k' hk hloop
        simp only [travLoop, TravResult.ok.injEq] at hloop
        obtain ⟨-, rfl⟩ := hloop
        exact ⟨hk, by simp⟩
      · intro e k hloop
        simp [travLoop] at hloop
  | cons n rest ih =>
      intro hN
      have hmem : n ∈ n :: rest := List.mem_cons_self n rest
      have hrest := fun n' hn' => hN n' (List.mem_cons_of_mem n hn')
      obtain ⟨ihok, ihexn⟩ := ih hrest
      constructor
      · intro u k k' hk hloop
        simp only [travLoop, List.not_mem_nil, if_false] at hloop
        cases hR : R n [] () with
        | out => rw [hR] at hloop; simp at hloop
        | exn e => rw [hR] at hloop; simp at hloop
        | ok u1 k1 =>
            rw [hR] at hloop
            dsimp only at hloop
            obtain ⟨hk1, hnr⟩ := (hN n hmem).1 u1 k1 hR
            rw [if_neg (by simp [hk1])] at hloop
            obtain ⟨hk', hall⟩ := ihok u k1 k' hk1 hloop
            refine ⟨hk', ?_⟩
            intro n' hn'
            rcases List.mem_cons.1 hn' with heq | hn'
            · cases heq; exact hnr
            · exact hall n' hn'
      · intro e k hloop
        simp only [travLoop, List.not_mem_nil, if_false] at hloop
        cases hR : R n [] () with
        | out => rw [hR] at hloop; simp at hloop
        | exn e' =>
            exact ⟨n, hmem, (hN n hmem).2 e' hR⟩
        | ok u1 k1 =>
            rw [hR] at hloop
            dsimp only at hloop
            obtain ⟨hk1, -⟩ := (hN n hmem).1 u1 k1 hR
            rw [if_neg (by simp [hk1])] at hloop
            obtain ⟨n', hn', hr⟩ := ihexn e k1 hloop
            exact ⟨n', List.mem_cons_of_mem n hn', hr⟩

theorem cycleRecurse_spec {E : List (Nat × List Nat)} {target : Nat} :
    ∀ (fuel : Nat) (g : Nat),
      (∀ (u : Unit) (k' : Bool),
        traverseRecurse E (cycleInvoke target) fuel g [] () = .ok u k' →
        (k' = true ∧ ¬ ReachesP E g target)) ∧
      (∀ e : Unit,
        traverseRecurse E (cycleInvoke target) fuel g [] () = .exn e →
        ReachesP E g target) := by
  intro fuel
  induction fuel with
  | zero =>
      intro g
      constructor
      · intro u k' h; rw [traverseRecurse_zero] at h; simp at h
      · intro e h; rw [traverseRecurse_zero] at h; simp at h
  | succ fuel ih =>
      intro g
      by_cases hg : g = target
      · constructor
        · intro u k' h
          rw [traverseRecurse_succ] at h
          simp only [cycleInvoke, if_pos hg] at h
          simp at h
        · intro e h
          cases hg
          exact .refl _
      · have hinv : cycleInvoke target () g = .ok ((), true) := by
          simp [cycleInvoke, hg]
        constructor
        · intro u k' h
          rw [traverseRecurse_succ] at h
          rw [hinv] at h
          cases hE : alLookup E g with
          | none =>
              rw [hE] at h
              simp only [TravResult.ok.injEq] at h
              obtain ⟨-, rfl⟩ := h
              refine ⟨rfl, ?_⟩
              intro hr
              exact absurd ((reach_none_iff hE (fun x => x = target)).1 ⟨target, hr, rfl⟩) hg
          | some ns =>
              rw [hE] at h
              dsimp only at h
              have hN := fun n (_ : n ∈ ns) => ih n
              obtain ⟨hk', hall⟩ := (cycleLoop_spec ns hN).1 u true k' rfl h
              refine ⟨hk', ?_⟩
              intro hr
              rcases (reach_step_iff hE (fun x => x = target)).1 ⟨target, hr, rfl⟩ with
                heq | ⟨n, hn, g', hr', heq⟩
              · exact hg heq
              · exact hall n hn (heq ▸ hr')
        · intro e h
          rw [traverseRecurse_succ] at h
          rw [hinv] at h
          cases hE : alLookup E g with
          | none => rw [hE] at h; simp at h
          | some ns =>
              rw [hE] at h
              dsimp only at h
              have hN := fun n (_ : n ∈ ns) => ih n
              obtain ⟨n, hn, hr⟩ := (cycleLoop_spec ns hN).2 e true h
              have he : EdgeRel E g n := by
                unfold EdgeRel neighborsOf
                rw [hE]
                exact hn
              exact .head he hr

theorem collectLoop_spec {E : List (Nat × List Nat)} {ents : Nat → List Nat}
    {R : Nat → List Nat → List Nat → TravResult (List Nat) Empty} :
    ∀ ns : List Nat,
      (∀ n ∈ ns, ∀ s s' k', R n [] s = .ok s' k' →
        (k' = true ∧ ∀ x, x ∈ s' ↔ (x ∈ s ∨ ∃ g', ReachesP E n g' ∧ x ∈ ents g'))) →
      ∀ s s' k', travLoop R ns [] s true = .ok s' k' →
        (k' = true ∧
         ∀ x, x ∈ s' ↔ (x ∈ s ∨ ∃ n ∈ ns, ∃ g', ReachesP E n g' ∧ x ∈ ents g')) := by
  intro ns
  induction ns with
  | nil =>
      intro _ s s' k' hloop
      simp only [travLoop, TravResult.ok.injEq] at hloop
      obtain ⟨rfl, rfl⟩ := hloop
      exact ⟨rfl, by simp⟩
  | cons n rest ih =>
      intro hN s s' k' hloop
      have hmem : n ∈ n :: rest := List.mem_cons_self n rest
      have hrest := fun n' hn' => hN n' (List.mem_cons_of_mem n hn')
      simp only [travLoop, List.not_mem_nil, if_false] at hloop
      cases hR : R n [] s with
      | out => rw [hR] at hloop; simp at hloop
      | exn e => exact e.elim
      | ok s1 k1 =>
          rw [hR] at hloop
          dsimp only at hloop
          obtain ⟨hk1, hiff1⟩ := hN n hmem s s1 k1 hR
          rw [if_neg (by simp [hk1])] at hloop
          rw [hk1] at hloop
          obtain ⟨hk', hiff2⟩ := ih hrest s1 s' k' hloop
          refine ⟨hk', ?_⟩
          intro x
          rw [hiff2 x, hiff1 x]
          simp only [List.exists_mem_cons_iff]
          exact or_assoc

theorem collectRecurse_spec {E : List (Nat × List Nat)}
    {gem : List (Nat × List (Nat × List Nat))} {t : Nat} :
    ∀ (fuel : Nat) (g : Nat) (s s' : List Nat) (k' : Bool),
      traverseRecurse E (collectInvoke gem t) fuel g [] s = .ok s' k' →
      (k' = true ∧
       ∀ x, x ∈ s' ↔ (x ∈ s ∨ ∃ g', ReachesP E g g' ∧ x ∈ entityRow gem g' t)) := by
  intro fuel
  induction fuel with
  | zero => intro g s s' k' h; rw [traverseRecurse_zero] at h; simp at h
  | succ fuel ih =>
      intro g s s' k' h
      rw [traverseRecurse_succ] at h
      simp only [collectInvoke] at h
      cases hE : alLookup E g with
      | none =>
          rw [hE] at h
          simp only [TravResult.ok.injEq] at h
          obtain ⟨h1, rfl⟩ := h
          refine ⟨rfl, ?_⟩
          intro x
          rw [← h1, mem_listUnion, reach_none_iff hE (fun g' => x ∈ entityRow gem g' t)]
      | some ns =>
          rw [hE] at h
          dsimp only at h
          have hN := fun n (_ : n ∈ ns) => ih n
          obtain ⟨hk', hiff⟩ := collectLoop_spec ns hN _ s' k' h
          refine ⟨hk', ?_⟩
          intro x
          rw [hiff x, mem_listUnion, reach_step_iff hE (fun g' => x ∈ entityRow gem g' t)]
          exact or_assoc

theorem fromUserLoop_collect_spec {E : List (Nat × List Nat)}
    {gem : List (Nat × List (Nat × List Nat))} {t : Nat} {fuel : Nat} :
    ∀ (gs : List Nat) (s s' : List Nat),
      traverseFromUserLoop E (collectInvoke gem t) fuel gs [] s = .ok s' →
      ∀ x, x ∈ s' ↔ (x ∈ s ∨ ∃ g ∈ gs, ∃ g', ReachesP E g g' ∧ x ∈ entityRow gem g' t) := by
  intro gs
  induction gs with
  | nil =>
      intro s s' h
      simp only [traverseFromUserLoop, FromUserResult.ok.injEq] at h
      subst h
      simp
  | cons g rest ih =>
      intro s s' h
      unfold traverseFromUserLoop at h
      cases hR : traverseRecurse E (collectInvoke gem t) fuel g [] s with
      | out => rw [hR] at h; simp at h
      | exn e => exact e.elim
      | ok s1 k1 =>
          rw [hR] at h
          have hiff1 := (collectRecurse_spec fuel g s s1 k1 hR).2
          have hiff2 := ih s1 s' h
          intro x
          simp only [List.exists_mem_cons_iff]
          rw [hiff2 x, hiff1 x]
          exact or_assoc

theorem acyclic_of_rank_list (E : List (Nat × List Nat)) (rank : Nat → Nat)
    (h : ∀ p ∈ E, ∀ b ∈ p.2, rank p.1 < rank b) : Acyclic E := by
  have hedge : ∀ a b, EdgeRel E a b → rank a < rank b := by
    intro a b he
    unfold EdgeRel neighborsOf at he
    cases hl : alLookup E a with
    | none => rw [hl] at he; simp at he
    | some vs =>
        rw [hl] at he
        simp only [Option.getD_some] at he
        exact h (a, vs) (alLookup_mem hl) b he
  have hreach : ∀ a b, ReachesP E a b → rank a ≤ rank b := by
    intro a b hr
    induction hr with
    | refl => exact le_refl _
    | head e _ ih => exact le_of_lt (lt_of_lt_of_le (hedge _ _ e) ih)
  intro a b he hr
  have h1 := hedge a b he
  have h2 := hreach b a hr
  omega

theorem recurse_fuelBound_ne_out {σ ε : Type} {E : List (Nat × List Nat)}
    {invoke : σ → Nat → Except ε (σ × Bool)} (hacyc : Acyclic E) :
    ∀ (g : Nat) (v : List Nat) (s : σ),
      traverseRecurse E invoke (fuelBound E) g v s ≠ .out :=
  fun g v s =>
    traverseRecurse_ne_out hacyc (fuelBound E) [] g (.nil g) List.nodup_nil
      (by simp) (by simp [fuelBound]) v s

theorem fromUserLoop_fuelBound_ne_out {σ ε : Type} {E : List (Nat × List Nat)}
    {invoke : σ → Nat → Except ε (σ × Bool)} (hacyc : Acyclic E) (gs : List Nat) :
    ∀ (v : List Nat) (s : σ),
      traverseFromUserLoop E invoke (fuelBound E) gs v s ≠ .out :=
  traverseFromUserLoop_ne_out (fun g _ v s => recurse_fuelBound_ne_out hacyc g v s)

theorem traverse_from_user_eq_loop {σ ε : Type} (st : AMState)
    (invoke : σ → Nat → Except ε (σ × Bool)) (fuel : Nat) {u : Nat} {s : σ}
    {gs : List Nat} (hu : u ∈ st.users)
    (hl : alLookup st.user_to_group_graph_edges u = some gs) :
    traverse_user_and_group_graph_from_user st invoke fuel u s =
      traverseFromUserLoop st.group_to_group_graph_edges invoke fuel gs [] s := by
  unfold traverse_user_and_group_graph_from_user
  rw [if_pos hu, hl]

theorem traverse_from_user_eq_ok_of_no_row {σ ε : Type} (st : AMState)
    (invoke : σ → Nat → Except ε (σ × Bool)) (fuel : Nat) {u : Nat} {s : σ}
    (hu : u ∈ st.users)
    (hl : alLookup st.user_to_group_graph_edges u = none) :
    traverse_user_and_group_graph_from_user st invoke fuel u s = .ok s := by
  unfold traverse_user_and_group_graph_from_user
  rw [if_pos hu, hl]

/-- C3: for a state whose group graph is acyclic, with both groups present,
distinct, and the edge absent, `add_group_to_group_mapping(f, t)` fails with
`CircularReference` exactly when the DFS over the group edges starting at `t`
reaches `f`; the edge is inserted only on success, and the group graph is
again acyclic after every successful call. -/
theorem C3_add_group_to_group_mapping_cycle_check (st : AMState) (f t : Nat)
    (hacyc : Acyclic st.group_to_group_graph_edges)
    (hf : f ∈ st.groups) (ht : t ∈ st.groups) (hne : f ≠ t)
    (hnedge : ¬ EdgeRel st.group_to_group_graph_edges f t) :
    (ReachesP st.group_to_group_graph_edges t f →
      add_group_to_group_mapping st (fuelBound st.group_to_group_graph_edges) f t =
        some (st, some (.circularReference f t))) ∧
    (¬ ReachesP st.group_to_group_graph_edges t f →
      add_group_to_group_mapping st (fuelBound st.group_to_group_graph_edges) f t =
        some ({ st with group_to_group_graph_edges := addEdgeRow st.group_to_group_graph_edges f t }, none) ∧
      Acyclic (addEdgeRow st.group_to_group_graph_edges f t)) := by
  have h1 : ¬ f ∉ st.groups := fun h => h hf
  have h2 : ¬ t ∉ st.groups := fun h => h ht
  have hnedge' : t ∉ neighborsOf st.group_to_group_graph_edges f := hnedge
  unfold add_group_to_group_mapping
  rw [if_neg h1, if_neg h2, if_neg hne, if_neg hnedge']
  have hterm :=
    @recurse_fuelBound_ne_out Unit Unit st.group_to_group_graph_edges (cycleInvoke f)
      hacyc t [] ()
  cases hres : traverseRecurse st.group_to_group_graph_edges (cycleInvoke f)
      (fuelBound st.group_to_group_graph_edges) t [] () with
  | out => exact absurd hres hterm
  | exn e =>
      have hreach := (cycleRecurse_spec (fuelBound st.group_to_group_graph_edges) t).2 e hres
      exact ⟨fun _ => rfl, fun hnr => absurd hreach hnr⟩
  | ok u k' =>
      have hnreach := ((cycleRecurse_spec (fuelBound st.group_to_group_graph_edges) t).1 u k' hres).2
      exact ⟨fun hr => absurd hr hnreach,
             fun _ => ⟨rfl, acyclic_addEdgeRow hacyc hnreach⟩⟩

theorem C3_witness :
    (ReachesP stDiamond.group_to_group_graph_edges 2 4 →
      add_group_to_group_mapping stDiamond
          (fuelBound stDiamond.group_to_group_graph_edges) 4 2 =
        some (stDiamond, some (.circularReference 4 2))) ∧
    (¬ ReachesP stDiamond.group_to_group_graph_edges 2 4 →
      add_group_to_group_mapping stDiamond
          (fuelBound stDiamond.group_to_group_graph_edges) 4 2 =
        some ({ stDiamond with group_to_group_graph_edges := addEdgeRow stDiamond.group_to_group_graph_edges 4 2 }, none) ∧
      Acyclic (addEdgeRow stDiamond.group_to_group_graph_edges 4 2)) :=
  C3_add_group_to_group_mapping_cycle_check stDiamond 4 2
    (acyclic_of_rank_list _ id (by decide)) (by decide) (by decide) (by decide)
    (by decide)

/-- C8: for every state whose group graph is acyclic, every start user, and
every visitor that does not itself raise (exception type `Empty`), the
traversal routine terminates — it either reports the missing start user or
returns normally — even though the `visited` set is never added to during the
recursion (the engine threads the set through unchanged, exactly as the
source does). -/
theorem C8_traversal_terminates {σ : Type} (st : AMState)
    (invoke : σ → Nat → Except Empty (σ × Bool)) (u : Nat) (s : σ)
    (hacyc : Acyclic st.group_to_group_graph_edges) :
    traverse_user_and_group_graph_from_user st invoke
        (fuelBound st.group_to_group_graph_edges) u s = .notFoundUser ∨
    ∃ s', traverse_user_and_group_graph_from_user st invoke
        (fuelBound st.group_to_group_graph_edges) u s = .ok s' := by
  by_cases hu : u ∈ st.users
  · cases hl : alLookup st.user_to_group_graph_edges u with
    | none => exact Or.inr ⟨s, traverse_from_user_eq_ok_of_no_row st invoke _ hu hl⟩
    | some gs =>
        right
        rw [traverse_from_user_eq_loop st invoke _ hu hl]
        cases hres : traverseFromUserLoop st.group_to_group_graph_edges invoke
            (fuelBound st.group_to_group_graph_edges) gs [] s with
        | out => exact absurd hres (fromUserLoop_fuelBound_ne_out hacyc gs [] s)
        | notFoundUser => exact absurd hres (traverseFromUserLoop_ne_notFound gs [] s)
        | exn e => exact e.elim
        | ok s' => exact ⟨s', rfl⟩
  · left
    unfold traverse_user_and_group_graph_from_user
    rw [if_neg hu]

theorem C8_witness :
    traverse_user_and_group_graph_from_user stDiamond traceInvoke
        (fuelBound stDiamond.group_to_group_graph_edges) 0 [] = .notFoundUser ∨
    ∃ s', traverse_user_and_group_graph_from_user stDiamond traceInvoke
        (fuelBound stDiamond.group_to_group_graph_edges) 0 [] = .ok s' :=
  C8_traversal_terminates stDiamond traceInvoke 0 []
    (acyclic_of_rank_list _ id (by decide))

/-- C5: for every state whose group graph is acyclic (the relevant global
invariant) and all inputs, `has_access_to_application_component(u, c, a)`
returns `False` without error when `u` is not a user, and otherwise returns
`True` exactly when `(c, a)` is among `u`'s direct component mappings or some
group reachable from `u` by one user→group edge followed by zero or more
group→group edges has `(c, a)` in its group component map. -/
theorem C5_has_access_to_application_component_spec (st : AMState) (u c a : Nat)
    (hacyc : Acyclic st.group_to_group_graph_edges) :
    (u ∉ st.users →
      has_access_to_application_component st
        (fuelBound st.group_to_group_graph_edges) u c a = some false) ∧
    (u ∈ st.users →
      ∃ b, has_access_to_application_component st
          (fuelBound st.group_to_group_graph_edges) u c a = some b ∧
        (b = true ↔
          ((c, a) ∈ (alLookup st.user_to_component_map u).getD [] ∨
           ∃ g0 g, g0 ∈ (alLookup st.user_to_group_graph_edges u).getD [] ∧
             ReachesP st.group_to_group_graph_edges g0 g ∧
             (c, a) ∈ (alLookup st.group_to_component_map g).getD []))) := by
  constructor
  · intro hu
    unfold has_access_to_application_component
    rw [if_neg hu]
  · intro hu
    unfold has_access_to_application_component
    rw [if_pos hu]
    by_cases hd : (c, a) ∈ (alLookup st.user_to_component_map u).getD []
    · rw [if_pos hd]
      exact ⟨true, rfl, by simp [hd]⟩
    · rw [if_neg hd]
      cases hl : alLookup st.user_to_group_graph_edges u with
      | none =>
          rw [traverse_from_user_eq_ok_of_no_row st _ _ hu hl]
          refine ⟨false, rfl, ?_⟩
          constructor
          · intro h; simp at h
          · rintro (h | ⟨g0, g, hg0, -, -⟩)
            · exact absurd h hd
            · simp at hg0
      | some gs =>
          rw [traverse_from_user_eq_loop st _ _ hu hl]
          cases hres : traverseFromUserLoop st.group_to_group_graph_edges
              (searchInvoke (componentHit st.group_to_component_map c a))
              (fuelBound st.group_to_group_graph_edges) gs [] false with
          | out => exact absurd hres (fromUserLoop_fuelBound_ne_out hacyc gs [] false)
          | notFoundUser => exact absurd hres (traverseFromUserLoop_ne_notFound gs [] false)
          | exn e => exact e.elim
          | ok b =>
              refine ⟨b, rfl, ?_⟩
              rw [fromUserLoop_search_spec gs false b hres]
              simp only [ReachHit, componentHit, decide_eq_true_eq, Option.getD_some]
              constructor
              · rintro (h | ⟨g0, hg0, g', hr, hp⟩)
                · simp at h
                · exact Or.inr ⟨g0, g', hg0, hr, hp⟩
              · rintro (h | ⟨g0, g', hg0, hr, hp⟩)
                · exact absurd h hd
                · exact Or.inr ⟨g0, hg0, g', hr, hp⟩

theorem C5_witness :
    (4 ∉ stDiamond.users →
      has_access_to_application_component stDiamond
        (fuelBound stDiamond.group_to_group_graph_edges) 4 9 9 = some false) ∧
    (4 ∈ stDiamond.users →
      ∃ b, has_access_to_application_component stDiamond
          (fuelBound stDiamond.group_to_group_graph_edges) 4 9 9 = some b ∧
        (b = true ↔
          ((9, 9) ∈ (alLookup stDiamond.user_to_component_map 4).getD [] ∨
           ∃ g0 g, g0 ∈ (alLookup stDiamond.user_to_group_graph_edges 4).getD [] ∧
             ReachesP stDiamond.group_to_group_graph_edges g0 g ∧
             (9, 9) ∈ (alLookup stDiamond.group_to_component_map g).getD []))) :=
  C5_has_access_to_application_component_spec stDiamond 4 9 9
    (acyclic_of_rank_list _ id (by decide))

theorem entityRow_ref {m : List (Nat × List (Nat × List Nat))}
    {ents : List (Nat × List Nat)}
    (href : ∀ p ∈ m, ∀ q ∈ p.2, ∀ x ∈ q.2, x ∈ (alLookup ents q.1).getD [])
    {key t e : Nat} (he : e ∈ entityRow m key t) :
    e ∈ (alLookup ents t).getD [] := by
  unfold entityRow at he
  cases h1 : alLookup m key with
  | none => rw [h1] at he; simp [alLookup] at he
  | some row =>
      rw [h1] at he
      simp only [Option.getD_some] at he
      cases h2 : alLookup row t with
      | none => rw [h2] at he; simp [alLookup] at he
      | some l' =>
          rw [h2] at he
          simp only [Option.getD_some] at he
          exact href (key, row) (alLookup_mem h1) (t, l') (alLookup_mem h2) e he

theorem has_access_to_entity_chars (st : AMState) (u t e : Nat) {es : List Nat}
    (hacyc : Acyclic st.group_to_group_graph_edges)
    (ht : alLookup st.entities t = some es) (he : e ∈ es) (hu : u ∈ st.users) :
    ∃ b, has_access_to_entity st (fuelBound st.group_to_group_graph_edges) u t e = .ok b ∧
      (b = true ↔
        (e ∈ entityRow st.user_to_entity_map u t ∨
         ∃ g0 g, g0 ∈ (alLookup st.user_to_group_graph_edges u).getD [] ∧
           ReachesP st.group_to_group_graph_edges g0 g ∧
           e ∈ entityRow st.group_to_entity_map g t)) := by
  have hne : ¬ e ∉ es := fun h => h he
  have hnu : ¬ u ∉ st.users := fun h => h hu
  unfold has_access_to_entity
  rw [ht]
  dsimp only
  rw [if_neg hne, if_neg hnu]
  by_cases hd : e ∈ entityRow st.user_to_entity_map u t
  · rw [if_pos hd]
    exact ⟨true, rfl, by simp [hd]⟩
  · rw [if_neg hd]
    cases hl : alLookup st.user_to_group_graph_edges u with
    | none =>
        rw [traverse_from_user_eq_ok_of_no_row st _ _ hu hl]
        refine ⟨false, rfl, ?_⟩
        constructor
        · intro h; simp at h
        · rintro (h | ⟨g0, g, hg0, -, -⟩)
          · exact absurd h hd
          · simp at hg0
    | some gs =>
        rw [traverse_from_user_eq_loop st _ _ hu hl]
        cases hres : traverseFromUserLoop st.group_to_group_graph_edges
            (searchInvoke (entityHit st.group_to_entity_map t e))
            (fuelBound st.group_to_group_graph_edges) gs [] false with
        | out => exact absurd hres (fromUserLoop_fuelBound_ne_out hacyc gs [] false)
        | notFoundUser => exact absurd hres (traverseFromUserLoop_ne_notFound gs [] false)
        | exn e' => exact e'.elim
        | ok b =>
            refine ⟨b, rfl, ?_⟩
            rw [fromUserLoop_search_spec gs false b hres]
            simp only [ReachHit, entityHit, decide_eq_true_eq, Option.getD_some]
            constructor
            · rintro (h | ⟨g0, hg0, g', hr, hp⟩)
              · simp at h
              · exact Or.inr ⟨g0, g', hg0, hr, hp⟩
            · rintro (h | ⟨g0, g', hg0, hr, hp⟩)
              · exact absurd h hd
              · exact Or.inr ⟨g0, hg0, g', hr, hp⟩

theorem get_accessible_entities_chars (st : AMState) (u t : Nat) {es : List Nat}
    (hacyc : Acyclic st.group_to_group_graph_edges)
    (hu : u ∈ st.users) (ht : alLookup st.entities t = some es) :
    ∃ l, get_accessible_entities st (fuelBound st.group_to_group_graph_edges) u t = .ok l ∧
      ∀ x, x ∈ l ↔
        (x ∈ entityRow st.user_to_entity_map u t ∨
         ∃ g0 g, g0 ∈ (alLookup st.user_to_group_graph_edges u).getD [] ∧
           ReachesP st.group_to_group_graph_edges g0 g ∧
           x ∈ entityRow st.group_to_entity_map g t) := by
  have hnu : ¬ u ∉ st.users := fun h => h hu
  unfold get_accessible_entities
  rw [if_neg hnu, ht]
  dsimp only
  cases hl : alLookup st.user_to_group_graph_edges u with
  | none =>
      rw [traverse_from_user_eq_ok_of_no_row st _ _ hu hl]
      refine ⟨_, rfl, ?_⟩
      intro x
      rw [mem_listUnion]
      constructor
      · rintro (h | h)
        · exact Or.inl h
        · simp at h
      · rintro (h | ⟨g0, g, hg0, -, -⟩)
        · exact Or.inl h
        · simp at hg0
  | some gs =>
      rw [traverse_from_user_eq_loop st _ _ hu hl]
      cases hres : traverseFromUserLoop st.group_to_group_graph_edges
          (collectInvoke st.group_to_entity_map t)
          (fuelBound st.group_to_group_graph_edges) gs [] [] with
      | out => exact absurd hres (fromUserLoop_fuelBound_ne_out hacyc gs [] [])
      | notFoundUser => exact absurd hres (traverseFromUserLoop_ne_notFound gs [] [])
      | exn e' => exact e'.elim
      | ok acc =>
          refine ⟨_, rfl, ?_⟩
          intro x
          rw [mem_listUnion, fromUserLoop_collect_spec gs [] acc hres x]
          simp only [List.not_mem_nil, false_or, Option.getD_some]
          constructor
          · rintro (h | ⟨g0, hg0, g', hr, hp⟩)
            · exact Or.inl h
            · exact Or.inr ⟨g0, g', hg0, hr, hp⟩
          · rintro (h | ⟨g0, g', hg0, hr, hp⟩)
            · exact Or.inl h
            · exact Or.inr ⟨g0, hg0, g', hr, hp⟩

/-- C7: for every state satisfying the global invariants (an acyclic group
graph and entity referential integrity), every user `u` present and every
entity type `t` present, the set returned by `get_accessible_entities(u, t)`
equals the set of entities `e` of type `t` for which
`has_access_to_entity(u, t, e)` returns `True`. -/
theorem C7_get_accessible_entities_eq (st : AMState) (u t : Nat) {es : List Nat}
    (hacyc : Acyclic st.group_to_group_graph_edges)
    (href : EntityRefIntegrity st)
    (hu : u ∈ st.users) (ht : alLookup st.entities t = some es) :
    ∃ l, get_accessible_entities st (fuelBound st.group_to_group_graph_edges) u t = .ok l ∧
      ∀ e, e ∈ l ↔
        (e ∈ es ∧
         has_access_to_entity st (fuelBound st.group_to_group_graph_edges) u t e =
           .ok true) := by
  obtain ⟨l, hres, hiff⟩ := get_accessible_entities_chars st u t hacyc hu ht
  refine ⟨l, hres, ?_⟩
  intro e
  by_cases hees : e ∈ es
  · obtain ⟨b, hb, hbiff⟩ := has_access_to_entity_chars st u t e hacyc ht hees hu
    rw [hiff e, hb]
    constructor
    · intro h
      refine ⟨hees, ?_⟩
      rw [hbiff.2 h]
    · rintro ⟨-, hcall⟩
      simp only [QRes.ok.injEq] at hcall
      exact hbiff.1 hcall
  · constructor
    · intro h
      rcases (hiff e).1 h with hdir | ⟨g0, g, -, -, hp⟩
      · have := entityRow_ref href.1 hdir
        rw [ht] at this
        simp only [Option.getD_some] at this
        exact absurd this hees
      · have := entityRow_ref href.2 hp
        rw [ht] at this
        simp only [Option.getD_some] at this
        exact absurd this hees
    · rintro ⟨h, -⟩
      exact absurd h hees

theorem C7_witness :
    ∃ l, get_accessible_entities stQuery
        (fuelBound stQuery.group_to_group_graph_edges) 7 3 = .ok l ∧
      ∀ e, e ∈ l ↔
        (e ∈ [4, 5] ∧
         has_access_to_entity stQuery
             (fuelBound stQuery.group_to_group_graph_edges) 7 3 e = .ok true) :=
  C7_get_accessible_entities_eq stQuery 7 3
    (acyclic_of_rank_list _ id (by decide)) ⟨by decide, by decide⟩
    (by decide) (by decide)

/-- C2 counterexample: in a state where user 0 is a member of group 1,
`remove_user(0)` returns without error yet the `UserGroupEdges` store still
holds an entry keyed by 0, contradicting the claim that after the call
`UserGroupEdges` has no entry for the user and no store holds it. -/
theorem C2_counterexample :
    (remove_user stUserInGroup 0).2 = none ∧
    ¬ alLookup (remove_user stUserInGroup 0).1.user_to_group_graph_edges 0 = none := by
  decide

/-- C2 (amended): `remove_user(u)` fails with `NotFound` when `u` is not a
user; otherwise it returns without error, after which `UserComponentMap` and
`UserEntityMap` have no entry for `u` and `u` is no longer in `Users` — but
`UserGroupEdges` (and every other store) is left unchanged, so an entry for
`u` there survives the removal. -/
theorem C2_remove_user_amended (st : AMState) (u : Nat) :
    (u ∉ st.users → remove_user st u = (st, some (.userDoesntExist u .user))) ∧
    (u ∈ st.users →
      (remove_user st u).2 = none ∧
      alLookup (remove_user st u).1.user_to_component_map u = none ∧
      alLookup (remove_user st u).1.user_to_entity_map u = none ∧
      u ∉ (remove_user st u).1.users ∧
      (remove_user st u).1.user_to_group_graph_edges = st.user_to_group_graph_edges ∧
      (remove_user st u).1.groups = st.groups ∧
      (remove_user st u).1.group_to_group_graph_edges = st.group_to_group_graph_edges ∧
      (remove_user st u).1.group_to_component_map = st.group_to_component_map ∧
      (remove_user st u).1.entities = st.entities ∧
      (remove_user st u).1.group_to_entity_map = st.group_to_entity_map) := by
  unfold remove_user
  by_cases hu : u ∈ st.users
  · rw [if_pos hu]
    refine ⟨fun h => absurd hu h, fun _ => ?_⟩
    refine ⟨rfl, alLookup_alRemoveKey_self _ _, alLookup_alRemoveKey_self _ _, ?_,
      rfl, rfl, rfl, rfl, rfl, rfl⟩
    intro hmem
    exact (mem_setRemove.1 hmem).2 rfl
  · rw [if_neg hu]
    exact ⟨fun _ => rfl, fun h => absurd h hu⟩

theorem C2_witness :
    remove_user stUserInGroup 5 = (stUserInGroup, some (.userDoesntExist 5 .user)) ∧
    ((remove_user stUserInGroup 0).2 = none ∧
      alLookup (remove_user stUserInGroup 0).1.user_to_component_map 0 = none ∧
      alLookup (remove_user stUserInGroup 0).1.user_to_entity_map 0 = none ∧
      0 ∉ (remove_user stUserInGroup 0).1.users ∧
      (remove_user stUserInGroup 0).1.user_to_group_graph_edges =
        stUserInGroup.user_to_group_graph_edges ∧
      (remove_user stUserInGroup 0).1.groups = stUserInGroup.groups ∧
      (remove_user stUserInGroup 0).1.group_to_group_graph_edges =
        stUserInGroup.group_to_group_graph_edges ∧
      (remove_user stUserInGroup 0).1.group_to_component_map =
        stUserInGroup.group_to_component_map ∧
      (remove_user stUserInGroup 0).1.entities = stUserInGroup.entities ∧
      (remove_user stUserInGroup 0).1.group_to_entity_map =
        stUserInGroup.group_to_entity_map) :=
  ⟨(C2_remove_user_amended stUserInGroup 5).1 (by decide),
   (C2_remove_user_amended stUserInGroup 0).2 (by decide)⟩

/-- C6 counterexample: in a state where group 1 has an outbound group edge to
group 2, `remove_group(1)` returns without error yet `GroupGroupEdges` still
holds the outbound entry keyed by 1, contradicting the claim that after the
call `GroupGroupEdges` has no outbound entry keyed by the group. -/
theorem C6_counterexample :
    (remove_group stGroupEdge 1).2 = none ∧
    ¬ alLookup (remove_group stGroupEdge 1).1.group_to_group_graph_edges 1 = none := by
  decide

/-- C6 (amended): for every group `g` present, `remove_group(g)` returns
without error, after which `GroupComponentMap` and `GroupEntityMap` have no
entry for `g` and `g` is no longer in `Groups` — but `GroupGroupEdges` (and
every other store) is left unchanged, so an outbound entry keyed by `g`
survives the removal. -/
theorem C6_remove_group_amended (st : AMState) (g : Nat) (hg : g ∈ st.groups) :
    (remove_group st g).2 = none ∧
    alLookup (remove_group st g).1.group_to_component_map g = none ∧
    alLookup (remove_group st g).1.group_to_entity_map g = none ∧
    g ∉ (remove_group st g).1.groups ∧
    (remove_group st g).1.group_to_group_graph_edges = st.group_to_group_graph_edges ∧
    (remove_group st g).1.users = st.users ∧
    (remove_group st g).1.user_to_group_graph_edges = st.user_to_group_graph_edges ∧
    (remove_group st g).1.user_to_component_map = st.user_to_component_map ∧
    (remove_group st g).1.entities = st.entities ∧
    (remove_group st g).1.user_to_entity_map = st.user_to_entity_map := by
  unfold remove_group
  rw [if_pos hg]
  refine ⟨rfl, alLookup_alRemoveKey_self _ _, alLookup_alRemoveKey_self _ _, ?_,
    rfl, rfl, rfl, rfl, rfl, rfl⟩
  intro hmem
  exact (mem_setRemove.1 hmem).2 rfl

theorem C6_witness :
    (remove_group stGroupEdge 1).2 = none ∧
    alLookup (remove_group stGroupEdge 1).1.group_to_component_map 1 = none ∧
    alLookup (remove_group stGroupEdge 1).1.group_to_entity_map 1 = none ∧
    1 ∉ (remove_group stGroupEdge 1).1.groups ∧
    (remove_group stGroupEdge 1).1.group_to_group_graph_edges =
      stGroupEdge.group_to_group_graph_edges ∧
    (remove_group stGroupEdge 1).1.users = stGroupEdge.users ∧
    (remove_group stGroupEdge 1).1.user_to_group_graph_edges =
      stGroupEdge.user_to_group_graph_edges ∧
    (remove_group stGroupEdge 1).1.user_to_component_map =
      stGroupEdge.user_to_component_map ∧
    (remove_group stGroupEdge 1).1.entities = stGroupEdge.entities ∧
    (remove_group stGroupEdge 1).1.user_to_entity_map =
      stGroupEdge.user_to_entity_map :=
  C6_remove_group_amended stGroupEdge 1 (by decide)

/-- C1: the source never adds any group to `visited_groups`, so in the
acyclic diamond state (user 0 → group 1, 1 → {2, 3}, 2 → 4, 3 → 4) a single
traversal invokes the visitor on group 4 twice — the recorded visit sequence
is `[1, 2, 4, 3, 4]` — refuting the claim that each group is visited at most
once per traversal. -/
theorem C1_visitor_invoked_twice :
    Acyclic stDiamond.group_to_group_graph_edges ∧
    traverse_user_and_group_graph_from_user stDiamond traceInvoke
        (fuelBound stDiamond.group_to_group_graph_edges) 0 [] = .ok [1, 2, 4, 3, 4] ∧
    List.count 4 [1, 2, 4, 3, 4] = 2 :=
  ⟨acyclic_of_rank_list _ id (by decide), by decide, by decide⟩

/-- C4: `remove_user_to_application_component_and_access_level_mapping` on a
user whose component row holds exactly the removed pair first removes the
pair and then calls the non-existent `dict.remove`, raising `AttributeError`;
the call both raises an error and leaves the state changed (the row is now
empty), refuting reject-doesn't-mutate. -/
theorem C4_remove_component_mapping_mutates_and_raises :
    (remove_user_to_application_component_and_access_level_mapping stOnePair 0 5 6).2 =
      some .attributeError ∧
    (remove_user_to_application_component_and_access_level_mapping stOnePair 0 5 6).1 ≠
      stOnePair ∧
    (remove_user_to_application_component_and_access_level_mapping
        stOnePair 0 5 6).1.user_to_component_map = [(0, [])] := by
  decide

/-- C9: the add/remove round trip fails for component mappings: starting from
a state where user 0 has no component row, the add succeeds, but the
corresponding remove raises `AttributeError` (via the non-existent
`dict.remove`) instead of succeeding, and the final state differs from the
initial one. -/
theorem C9_add_remove_component_round_trip_fails :
    (add_user_to_application_component_and_access_level_mapping stOneUser 0 5 6).2 = none ∧
    (remove_user_to_application_component_and_access_level_mapping
        (add_user_to_application_component_and_access_level_mapping stOneUser 0 5 6).1
        0 5 6).2 = some .attributeError ∧
    (remove_user_to_application_component_and_access_level_mapping
        (add_user_to_application_component_and_access_level_mapping stOneUser 0 5 6).1
        0 5 6).1 ≠ stOneUser := by
  decide

/-- C10: the two entity-mapping getters are generator functions: calling them
merely builds a paused generator (no check of the Python body runs, so no
error can be raised at call time), and the `NotFound` error for a missing
user or group is raised only when the returned iterable is first advanced. -/
theorem C10_generator_laziness (st : AMState) (u g : Nat)
    (hu : u ∉ st.users) (hg : g ∉ st.groups) :
    get_user_to_entity_mappings_for_user st u = ⟨st, u⟩ ∧
    (get_user_to_entity_mappings_for_user st u).advance =
      .error (.userDoesntExist u .user) ∧
    get_group_to_entity_mappings_for_group st g = ⟨st, g⟩ ∧
    (get_group_to_entity_mappings_for_group st g).advance =
      .error (.groupDoesntExist g .group) := by
  refine ⟨rfl, ?_, rfl, ?_⟩
  · unfold UserEntityMappingsGenerator.advance get_user_to_entity_mappings_for_user
    rw [if_pos hu]
  · unfold GroupEntityMappingsGenerator.advance get_group_to_entity_mappings_for_group
    rw [if_pos hg]

theorem C10_witness :
    get_user_to_entity_mappings_for_user stOneUser 9 = ⟨stOneUser, 9⟩ ∧
    (get_user_to_entity_mappings_for_user stOneUser 9).advance =
      .error (.userDoesntExist 9 .user) ∧
    get_group_to_entity_mappings_for_group stOneUser 9 = ⟨stOneUser, 9⟩ ∧
    (get_group_to_entity_mappings_for_group stOneUser 9).advance =
      .error (.groupDoesntExist 9 .group) :=
  C10_generator_laziness stOneUser 9 9 (by decide) (by decide)
